import Mathlib

/-!
Shallow embedding of the `rueue` crate (a generic, optionally-bounded,
multi-discipline queue) and verification of its specification claims.

Modelling conventions:
* Rust `&mut self` methods become state-passing functions `State → Result × State`.
* The concurrency artifacts of `QueueInner` (the `Mutex` around the store, the
  `pending` mutex and the two `Condvar`s) carry no sequential data; the
  sequential state of a queue is the backing store plus the immutable
  `maxsize` bound.  The blocking `_wait` operations are modelled under
  single-threaded semantics: an untimed condition-variable wait only returns
  on a wake-up (counted by a fuel argument; `none` means the call is still
  blocked in the wait loop), and a timed wait with no concurrent notifier
  times out.
* `usize` lengths become `Nat` (lengths are small and never overflow here).
* Rust std containers (`VecDeque`, `Vec`, `BinaryHeap`) are not part of this
  repository; they are modelled by their documented contracts.
-/

namespace Rueue

/-- `enum QueueError { Full, Empty }` from `src/queue.rs`. -/
inductive QueueError where
  | Full : QueueError
  | Empty : QueueError
deriving DecidableEq, Repr

/-- `struct PutError<T>(T, QueueError)` from `src/queue.rs`: a failed insert
returns the rejected value together with the fault kind. -/
structure PutError (T : Type u) where
  value : T
  error : QueueError
deriving DecidableEq, Repr

/-- The `BasicArray<T>` trait from `src/queue.rs`: the backing-store
capability contract.  `get(&mut self) -> Option<T>` is state-passing: `none`
means no element was available (the store is unchanged in that case, which
the engine models by keeping the old state). -/
class BasicArray (Q : Type u) (T : outParam (Type v)) where
  new : Option Nat → Q
  len : Q → Nat
  get : Q → Option (T × Q)
  put : Q → T → Q

/-- Model of `std::collections::VecDeque<T>` contents, front first.
`with_capacity` only reserves storage, so `new` ignores the capacity hint. -/
structure VecDeque (T : Type u) where
  toList : List T
deriving DecidableEq, Repr

/-- `impl<T> BasicArray<T> for VecDeque<T>` from `src/fifo_queue.rs`:
`get` is `pop_front`, `put` is `push_back`. -/
instance vecDequeArray : BasicArray (VecDeque T) T where
  new _ := ⟨[]⟩
  len q := q.toList.length
  get q :=
    match q.toList with
    | [] => none
    | x :: xs => some (x, ⟨xs⟩)
  put q v := ⟨q.toList ++ [v]⟩

/-- Model of `std::vec::Vec<T>` contents, index 0 first.
`with_capacity` only reserves storage, so `new` ignores the capacity hint. -/
structure Vec (T : Type u) where
  toList : List T
deriving DecidableEq, Repr

/-- `impl<T> BasicArray<T> for Vec<T>` from `src/lifo_queue.rs`:
`get` is `pop` (removes from the end), `put` is `push` (appends to the end). -/
instance vecArray : BasicArray (Vec T) T where
  new _ := ⟨[]⟩
  len q := q.toList.length
  get q :=
    match q.toList.reverse with
    | [] => none
    | x :: xs => some (x, ⟨xs.reverse⟩)
  put q v := ⟨q.toList ++ [v]⟩

/-- `struct PrioritizedItem<T, P>(pub T, pub P)` from `src/priority_queue.rs`:
field 0 is the payload, field 1 the priority key.  Its `Ord`/`PartialOrd`/
`PartialEq` impls delegate entirely to the priority key. -/
structure PrioritizedItem (T : Type u) (P : Type v) where
  payload : T
  priority : P
deriving DecidableEq, Repr

/-- The comparison `PrioritizedItem::cmp` induces, lifted to "`a` goes before
`b` in descending priority order": `b.1 <= a.1`. -/
def prioGE [LinearOrder P] (a b : PrioritizedItem T P) : Prop :=
  b.priority ≤ a.priority

instance [LinearOrder P] : DecidableRel (prioGE (T := T) (P := P)) :=
  fun a b => inferInstanceAs (Decidable (b.priority ≤ a.priority))

instance [LinearOrder P] : IsTotal (PrioritizedItem T P) prioGE where
  total a b := le_total b.priority a.priority

instance [LinearOrder P] : IsTrans (PrioritizedItem T P) prioGE where
  trans _ _ _ hab hbc := le_trans hbc hab

/-- Modelled from the spec: `std::collections::BinaryHeap` is external
standard-library code, not part of this repository.  Per its documented
contract (and the spec: "insert pushes into a max-heap keyed by priority;
remove extracts the maximum-priority element"), it is modelled as a list of
items kept sorted by non-increasing priority; `pop` takes the head.  The
relative order among equal priorities is unspecified by the source, so the
model's particular tie order carries no significance. -/
structure BinaryHeap (T : Type u) (P : Type v) where
  toList : List (PrioritizedItem T P)
deriving Repr

/-- `impl BasicArray<PrioritizedItem<T, P>> for BinaryHeap<...>` from
`src/priority_queue.rs`: `get` is `pop` (removes a greatest item), `put` is
`push`. -/
instance binaryHeapArray [LinearOrder P] :
    BasicArray (BinaryHeap T P) (PrioritizedItem T P) where
  new _ := ⟨[]⟩
  len q := q.toList.length
  get q :=
    match q.toList with
    | [] => none
    | x :: xs => some (x, ⟨xs⟩)
  put q v := ⟨List.orderedInsert prioGE v q.toList⟩

/-- `struct BaseQueue<Q, T>` with its `QueueInner` from `src/queue.rs`,
reduced to its sequential data: the lock-guarded store and the immutable
optional capacity bound.  (`pending`, the two `Condvar`s and the `Arc`
reference count hold no sequential data.) -/
structure BaseQueue (Q : Type u) (T : Type v) where
  queue : Q
  maxsize : Option Nat

namespace BaseQueue

variable {Q : Type u} {T : Type v} [BasicArray Q T]

/-- `BaseQueue::new(maxsize)`: a fresh store built with the capacity hint,
and the bound recorded. -/
def new (maxsize : Option Nat) : BaseQueue Q T :=
  ⟨BasicArray.new maxsize, maxsize⟩

/-- `fn len(&self) -> usize`: the store's own element count, observed under
the lock (no separate counter). -/
def len (q : BaseQueue Q T) : Nat :=
  BasicArray.len (T := T) q.queue

/-- `fn is_empty(&self) -> bool`: `self.len() == 0`. -/
def is_empty (q : BaseQueue Q T) : Bool :=
  q.len == 0

/-- `fn is_full(&self) -> bool`: `Some(self.len()) == self.inner.maxsize`. -/
def is_full (q : BaseQueue Q T) : Bool :=
  some q.len == q.maxsize

/-- `fn get(&mut self) -> Result<T, QueueError>`: under the lock, attempt
removal from the store; on success notify `not_full` (no sequential effect)
and return the element; otherwise return `Empty` with the state unchanged. -/
def get (q : BaseQueue Q T) : Except QueueError T × BaseQueue Q T :=
  match BasicArray.get q.queue with
  | some (value, rest) => (Except.ok value, { q with queue := rest })
  | none => (Except.error QueueError.Empty, q)

/-- `fn put(&mut self, value) -> Result<(), PutError<T>>`: under the lock,
if `Some(queue.len()) == maxsize` return `Full` carrying the value back;
otherwise insert and notify `not_empty` (no sequential effect). -/
def put (q : BaseQueue Q T) (value : T) : Except (PutError T) Unit × BaseQueue Q T :=
  if some (BasicArray.len (T := T) q.queue) == q.maxsize then
    (Except.error ⟨value, QueueError.Full⟩, q)
  else
    (Except.ok (), { q with queue := BasicArray.put q.queue value })

/-- The `timeout.is_zero()` branch of `fn get_wait`: `while self.is_empty()`
wait (untimed) on `not_empty`.  Single-threaded semantics: the state never
changes across a wait, each fuel unit is one observed wake-up, and `none`
means the call is still blocked in the loop after that many wake-ups. -/
def get_wait_zero_loop (q : BaseQueue Q T) :
    Nat → Option (Except QueueError T × BaseQueue Q T)
  | 0 => if q.is_empty then none else some q.get
  | fuel + 1 => if q.is_empty then get_wait_zero_loop q fuel else some q.get

/-- `fn get_wait(&mut self, timeout)` from `src/queue.rs`, under
single-threaded semantics.  `timeoutIsZero` is `timeout.is_zero()`.  In the
timed branch a wait with no concurrent notifier times out, upon which the
code returns `Empty`; if the store is non-empty the loop is never entered
and `self.get()` runs directly. -/
def get_wait (q : BaseQueue Q T) (timeoutIsZero : Bool) (fuel : Nat) :
    Option (Except QueueError T × BaseQueue Q T) :=
  if timeoutIsZero then
    get_wait_zero_loop q fuel
  else
    if q.is_empty then some (Except.error QueueError.Empty, q) else some q.get

/-- The `timeout.is_zero()` branch of `fn put_wait`: `while self.is_full()`
wait (untimed) on `not_full`; same single-threaded reading as
`get_wait_zero_loop`. -/
def put_wait_zero_loop (q : BaseQueue Q T) (value : T) :
    Nat → Option (Except (PutError T) Unit × BaseQueue Q T)
  | 0 => if q.is_full then none else some (q.put value)
  | fuel + 1 => if q.is_full then put_wait_zero_loop q value fuel else some (q.put value)

/-- `fn put_wait(&mut self, value, timeout)` from `src/queue.rs`, under
single-threaded semantics; mirrors `get_wait` with `is_full` and `not_full`,
returning `Full(value)` on a timeout. -/
def put_wait (q : BaseQueue Q T) (value : T) (timeoutIsZero : Bool) (fuel : Nat) :
    Option (Except (PutError T) Unit × BaseQueue Q T) :=
  if timeoutIsZero then
    put_wait_zero_loop q value fuel
  else
    if q.is_full then some (Except.error ⟨value, QueueError.Full⟩, q)
    else some (q.put value)

end BaseQueue

/-- `pub type FifoQueue<T> = BaseQueue<VecDeque<T>, T>` from
`src/fifo_queue.rs`. -/
abbrev FifoQueue (T : Type u) : Type u := BaseQueue (VecDeque T) T

/-- `pub type LifoQueue<T> = BaseQueue<Vec<T>, T>` from `src/lifo_queue.rs`. -/
abbrev LifoQueue (T : Type u) : Type u := BaseQueue (Vec T) T

/-- `pub type PriorityQueue<T, P> = BaseQueue<BinaryHeap<...>, PrioritizedItem<T, P>>`
from `src/priority_queue.rs`. -/
abbrev PriorityQueue (T : Type u) (P : Type v) : Type (max u v) :=
  BaseQueue (BinaryHeap T P) (PrioritizedItem T P)

namespace BaseQueue

/-- Drive a queue with a sequence of puts, keeping only the final state
(on an unbounded queue every put succeeds). -/
def putList [BasicArray Q T] (q : BaseQueue Q T) (vs : List T) : BaseQueue Q T :=
  vs.foldl (fun q v => (q.put v).2) q

/-- Drive a queue with `n` gets, collecting the results in call order. -/
def getList [BasicArray Q T] (q : BaseQueue Q T) : Nat → List (Except QueueError T)
  | 0 => []
  | n + 1 => (q.get).1 :: getList (q.get).2 n

end BaseQueue

section EngineLemmas

variable {Q : Type u} {T : Type v} [BasicArray Q T]

theorem put_of_len_eq_bound (q : BaseQueue Q T) (v : T) (N : Nat)
    (hmax : q.maxsize = some N) (hlen : q.len = N) :
    q.put v = (Except.error ⟨v, QueueError.Full⟩, q) := by
  simp only [BaseQueue.len] at hlen
  simp [BaseQueue.put, hmax, hlen]

theorem put_of_len_lt_bound (q : BaseQueue Q T) (v : T) (N : Nat)
    (hmax : q.maxsize = some N) (hlen : q.len < N) :
    q.put v = (Except.ok (), { q with queue := BasicArray.put q.queue v }) := by
  simp only [BaseQueue.len] at hlen
  simp [BaseQueue.put, hmax, Nat.ne_of_lt hlen]

theorem put_of_unbounded (q : BaseQueue Q T) (v : T) (hmax : q.maxsize = none) :
    q.put v = (Except.ok (), { q with queue := BasicArray.put q.queue v }) := by
  simp [BaseQueue.put, hmax]

end EngineLemmas

/-- C1: with a capacity bound `N` and current length `N`, a non-blocking
`put v` returns the `Full` fault carrying exactly `v` and leaves the queue
unchanged; with length below the bound, or with no bound, `put v` inserts
`v` into the store and returns success. -/
theorem claim_C1 {Q : Type u} {T : Type v} [BasicArray Q T]
    (q : BaseQueue Q T) (v : T) (N : Nat) :
    (q.maxsize = some N → q.len = N →
      q.put v = (Except.error ⟨v, QueueError.Full⟩, q)) ∧
    (q.maxsize = some N → q.len < N →
      q.put v = (Except.ok (), { q with queue := BasicArray.put q.queue v })) ∧
    (q.maxsize = none →
      q.put v = (Except.ok (), { q with queue := BasicArray.put q.queue v })) :=
  ⟨put_of_len_eq_bound q v N, put_of_len_lt_bound q v N,
    put_of_unbounded q v⟩

/-- C1 witness: a FIFO queue at its bound rejects and returns the value; a
queue with room, or no bound, inserts. -/
theorem claim_C1_witness :
    ((⟨⟨[5]⟩, some 1⟩ : FifoQueue Nat).put 7 =
        (Except.error ⟨7, QueueError.Full⟩, ⟨⟨[5]⟩, some 1⟩)) ∧
    ((⟨⟨[]⟩, some 1⟩ : FifoQueue Nat).put 7 =
        (Except.ok (), ⟨⟨[7]⟩, some 1⟩)) ∧
    ((⟨⟨[5]⟩, none⟩ : FifoQueue Nat).put 7 =
        (Except.ok (), ⟨⟨[5, 7]⟩, none⟩)) :=
  ⟨(claim_C1 _ 7 1).1 rfl rfl,
   (claim_C1 _ 7 1).2.1 rfl (by decide),
   (claim_C1 (⟨⟨[5]⟩, none⟩ : FifoQueue Nat) 7 0).2.2 rfl⟩

/-- C8: `is_full` is true exactly when a bound is set and the length equals
it; an unbounded queue is never full; `is_empty` is true exactly when the
length is 0. -/
theorem claim_C8 {Q : Type u} {T : Type v} [BasicArray Q T] (q : BaseQueue Q T) :
    (q.is_full = true ↔ ∃ N, q.maxsize = some N ∧ q.len = N) ∧
    (q.maxsize = none → q.is_full = false) ∧
    (q.is_empty = true ↔ q.len = 0) := by
  refine ⟨?_, ?_, ?_⟩
  · constructor
    · intro h
      simp only [BaseQueue.is_full, beq_iff_eq] at h
      exact ⟨q.len, h.symm, rfl⟩
    · rintro ⟨N, hmax, hlen⟩
      simp [BaseQueue.is_full, hmax, hlen]
  · intro hmax
    simp [BaseQueue.is_full, hmax]
  · simp [BaseQueue.is_empty]

/-- C8 witness: a bounded FIFO queue at its bound is full; an unbounded one
with the same contents is not; emptiness matches length 0. -/
theorem claim_C8_witness :
    ((⟨⟨[5]⟩, some 1⟩ : FifoQueue Nat).is_full = true ↔
      ∃ N, (some 1 : Option Nat) = some N ∧
        (⟨⟨[5]⟩, some 1⟩ : FifoQueue Nat).len = N) ∧
    (⟨⟨[5]⟩, none⟩ : FifoQueue Nat).is_full = false ∧
    ((⟨⟨[5]⟩, none⟩ : FifoQueue Nat).is_empty = true ↔
      (⟨⟨[5]⟩, none⟩ : FifoQueue Nat).len = 0) :=
  ⟨(claim_C8 (⟨⟨[5]⟩, some 1⟩ : FifoQueue Nat)).1,
   (claim_C8 (⟨⟨[5]⟩, none⟩ : FifoQueue Nat)).2.1 rfl,
   (claim_C8 (⟨⟨[5]⟩, none⟩ : FifoQueue Nat)).2.2⟩

/-- C6: on any queue whose store reports no element, a non-blocking `get`
returns the `Empty` fault and leaves the state unchanged; a freshly
constructed queue of each of the three variants has length 0 and its `get`
returns `Empty` with the fresh state unchanged. -/
theorem claim_C6 {Q : Type} {T : Type} [BasicArray Q T]
    (q : BaseQueue Q T) (m : Option Nat) :
    (BasicArray.get (T := T) q.queue = none →
      q.get = (Except.error QueueError.Empty, q)) ∧
    ((BaseQueue.new m : FifoQueue Nat).len = 0 ∧
      (BaseQueue.new m : FifoQueue Nat).get =
        (Except.error QueueError.Empty, BaseQueue.new m)) ∧
    ((BaseQueue.new m : LifoQueue Nat).len = 0 ∧
      (BaseQueue.new m : LifoQueue Nat).get =
        (Except.error QueueError.Empty, BaseQueue.new m)) ∧
    ((BaseQueue.new m : PriorityQueue Nat Nat).len = 0 ∧
      (BaseQueue.new m : PriorityQueue Nat Nat).get =
        (Except.error QueueError.Empty, BaseQueue.new m)) := by
  refine ⟨fun h => ?_, ⟨rfl, rfl⟩, ⟨rfl, rfl⟩, ⟨rfl, rfl⟩⟩
  simp [BaseQueue.get, h]

/-- C6 witness: instantiated on a fresh FIFO queue with no bound. -/
theorem claim_C6_witness :
    ((BaseQueue.new none : FifoQueue Nat).get =
      (Except.error QueueError.Empty, BaseQueue.new none)) ∧
    (BaseQueue.new none : FifoQueue Nat).len = 0 :=
  ⟨(claim_C6 (BaseQueue.new none : FifoQueue Nat) none).1 rfl,
   (claim_C6 (BaseQueue.new none : FifoQueue Nat) none).2.1.1⟩

section Fifo

variable {T : Type u}

theorem fifo_putList (l vs : List T) :
    BaseQueue.putList (⟨⟨l⟩, none⟩ : FifoQueue T) vs = ⟨⟨l ++ vs⟩, none⟩ := by
  induction vs generalizing l with
  | nil => simp [BaseQueue.putList]
  | cons v vs ih =>
      have hstep : ((⟨⟨l⟩, none⟩ : FifoQueue T).put v).2 = ⟨⟨l ++ [v]⟩, none⟩ := rfl
      calc BaseQueue.putList (⟨⟨l⟩, none⟩ : FifoQueue T) (v :: vs)
          = BaseQueue.putList (⟨⟨l ++ [v]⟩, none⟩ : FifoQueue T) vs := by
            simp [BaseQueue.putList, hstep]
        _ = ⟨⟨l ++ [v] ++ vs⟩, none⟩ := ih (l ++ [v])
        _ = ⟨⟨l ++ v :: vs⟩, none⟩ := by simp

theorem fifo_getList (l : List T) (m : Option Nat) :
    BaseQueue.getList (⟨⟨l⟩, m⟩ : FifoQueue T) l.length = l.map Except.ok := by
  induction l with
  | nil => simp [BaseQueue.getList]
  | cons x xs ih =>
      have hget : (⟨⟨x :: xs⟩, m⟩ : FifoQueue T).get = (Except.ok x, ⟨⟨xs⟩, m⟩) := rfl
      simp [BaseQueue.getList, hget, ih]

end Fifo

/-- C3: on an unbounded FIFO queue, putting `v1..vN` and then performing `N`
gets returns `v1..vN` in that exact order (insert appends to the tail,
remove takes from the head). -/
theorem claim_C3 {T : Type u} (vs : List T) :
    BaseQueue.getList
        (BaseQueue.putList (BaseQueue.new none : FifoQueue T) vs) vs.length
      = vs.map Except.ok := by
  have hnew : (BaseQueue.new none : FifoQueue T) = ⟨⟨[]⟩, none⟩ := rfl
  rw [hnew, fifo_putList]
  simpa using fifo_getList vs none

section Lifo

variable {T : Type u}

theorem lifo_putList (l vs : List T) :
    BaseQueue.putList (⟨⟨l⟩, none⟩ : LifoQueue T) vs = ⟨⟨l ++ vs⟩, none⟩ := by
  induction vs generalizing l with
  | nil => simp [BaseQueue.putList]
  | cons v vs ih =>
      have hstep : ((⟨⟨l⟩, none⟩ : LifoQueue T).put v).2 = ⟨⟨l ++ [v]⟩, none⟩ := rfl
      calc BaseQueue.putList (⟨⟨l⟩, none⟩ : LifoQueue T) (v :: vs)
          = BaseQueue.putList (⟨⟨l ++ [v]⟩, none⟩ : LifoQueue T) vs := by
            simp [BaseQueue.putList, hstep]
        _ = ⟨⟨l ++ [v] ++ vs⟩, none⟩ := ih (l ++ [v])
        _ = ⟨⟨l ++ v :: vs⟩, none⟩ := by simp

theorem vec_get_append (ys : List T) (x : T) (m : Option Nat) :
    (⟨⟨ys ++ [x]⟩, m⟩ : LifoQueue T).get = (Except.ok x, ⟨⟨ys⟩, m⟩) := by
  simp [BaseQueue.get, vecArray]

theorem lifo_getList (l : List T) (m : Option Nat) :
    BaseQueue.getList (⟨⟨l⟩, m⟩ : LifoQueue T) l.length = l.reverse.map Except.ok := by
  induction l using List.reverseRecOn with
  | nil => simp [BaseQueue.getList]
  | append_singleton ys x ih =>
      rw [List.length_append]
      simp only [List.length_singleton]
      rw [BaseQueue.getList, vec_get_append]
      simp [ih]

end Lifo

/-- C4: on an unbounded LIFO queue, putting `v1..vN` and then performing `N`
gets returns `vN..v1`, most-recently-inserted first (insert appends to the
tail, remove takes from the tail). -/
theorem claim_C4 {T : Type u} (vs : List T) :
    BaseQueue.getList
        (BaseQueue.putList (BaseQueue.new none : LifoQueue T) vs) vs.length
      = vs.reverse.map Except.ok := by
  have hnew : (BaseQueue.new none : LifoQueue T) = ⟨⟨[]⟩, none⟩ := rfl
  rw [hnew, lifo_putList]
  simpa using lifo_getList vs none

section Priority

variable {T : Type u} {P : Type v} [LinearOrder P]

/-- On an unbounded priority queue, a sequence of puts lands in a store list
that is a permutation of the inserted items together with the initial
contents, and stays sorted by non-increasing priority. -/
theorem prio_putList_unbounded (items : List (PrioritizedItem T P))
    (l : List (PrioritizedItem T P)) :
    ∃ out, BaseQueue.putList (⟨⟨l⟩, none⟩ : PriorityQueue T P) items = ⟨⟨out⟩, none⟩ ∧
      out.Perm (items ++ l) ∧
      (List.Sorted prioGE l → List.Sorted prioGE out) := by
  induction items generalizing l with
  | nil => exact ⟨l, rfl, by simp, fun h => h⟩
  | cons v vs ih =>
      have hstep : ((⟨⟨l⟩, none⟩ : PriorityQueue T P).put v).2
          = ⟨⟨List.orderedInsert prioGE v l⟩, none⟩ := rfl
      have hfold : BaseQueue.putList (⟨⟨l⟩, none⟩ : PriorityQueue T P) (v :: vs)
          = BaseQueue.putList (⟨⟨List.orderedInsert prioGE v l⟩, none⟩ : PriorityQueue T P) vs := by
        simp [BaseQueue.putList, hstep]
      obtain ⟨out, hout, hperm, hsort⟩ := ih (List.orderedInsert prioGE v l)
      refine ⟨out, hfold.trans hout, ?_, fun hl => hsort (hl.orderedInsert v l)⟩
      exact hperm.trans
        (((List.perm_orderedInsert prioGE v l).append_left vs).trans List.perm_middle)

theorem sorted_head_max {i : PrioritizedItem T P} {xs : List (PrioritizedItem T P)}
    (h : List.Sorted prioGE (i :: xs)) :
    ∀ x ∈ i :: xs, x.priority ≤ i.priority := by
  intro x hx
  rcases List.mem_cons.mp hx with hx | hx
  · exact le_of_eq (by rw [hx])
  · exact List.rel_of_sorted_cons h x hx

end Priority

/-- C5: each get on an unbounded priority queue removes and returns an item
whose priority key is maximal among those stored (here: after any non-empty
sequence of puts); and the concrete run with (payload, priority) pairs
(1,10), (2,8), (3,9) returns payloads 1, 3, 2 with priorities 10, 9, 8. -/
theorem claim_C5 {T : Type u} {P : Type v} [LinearOrder P]
    (items : List (PrioritizedItem T P)) (hne : items ≠ []) :
    (∃ i rest,
        (BaseQueue.putList (BaseQueue.new none : PriorityQueue T P) items).get
          = (Except.ok i, rest) ∧
        (∀ x ∈ items, x.priority ≤ i.priority) ∧
        (i :: rest.queue.toList).Perm items) ∧
    BaseQueue.getList
        (BaseQueue.putList (BaseQueue.new none : PriorityQueue Nat Nat)
          [⟨1, 10⟩, ⟨2, 8⟩, ⟨3, 9⟩]) 3
      = [Except.ok ⟨1, 10⟩, Except.ok ⟨3, 9⟩, Except.ok ⟨2, 8⟩] := by
  constructor
  · have hnew : (BaseQueue.new none : PriorityQueue T P) = ⟨⟨[]⟩, none⟩ := rfl
    obtain ⟨out, hout, hperm, hsort⟩ := prio_putList_unbounded items []
    rw [List.append_nil] at hperm
    have hsorted : List.Sorted prioGE out := hsort (List.sorted_nil)
    have hlen : out ≠ [] := by
      intro h0
      exact hne (List.Perm.eq_nil (h0 ▸ hperm).symm)
    obtain ⟨i, xs, rfl⟩ := List.exists_cons_of_ne_nil hlen
    refine ⟨i, ⟨⟨xs⟩, none⟩, ?_, ?_, hperm⟩
    · rw [hnew, hout]
      rfl
    · intro x hx
      exact sorted_head_max hsorted x (hperm.symm.mem_iff.mp hx)
  · rfl

/-- C5 witness: the general maximum-extraction part instantiated at the
concrete (1,10), (2,8), (3,9) run. -/
theorem claim_C5_witness :
    (∃ i rest,
        (BaseQueue.putList (BaseQueue.new none : PriorityQueue Nat Nat)
            [⟨1, 10⟩, ⟨2, 8⟩, ⟨3, 9⟩]).get
          = (Except.ok i, rest) ∧
        (∀ x ∈ [(⟨1, 10⟩ : PrioritizedItem Nat Nat), ⟨2, 8⟩, ⟨3, 9⟩],
          x.priority ≤ i.priority) ∧
        (i :: rest.queue.toList).Perm [⟨1, 10⟩, ⟨2, 8⟩, ⟨3, 9⟩]) ∧
    BaseQueue.getList
        (BaseQueue.putList (BaseQueue.new none : PriorityQueue Nat Nat)
          [⟨1, 10⟩, ⟨2, 8⟩, ⟨3, 9⟩]) 3
      = [Except.ok ⟨1, 10⟩, Except.ok ⟨3, 9⟩, Except.ok ⟨2, 8⟩] :=
  claim_C5 [⟨1, 10⟩, ⟨2, 8⟩, ⟨3, 9⟩] (by decide)

/-- Length laws that each of the three concrete backing stores satisfies:
a fresh store is empty, `put` grows the count by one, a successful `get`
shrinks it by one, and an empty store has nothing to `get`.  These are
facts about the store adapters, used to propagate the engine's capacity
invariant across operation sequences. -/
class LawfulBasicArray (Q : Type u) (T : Type v) [BasicArray Q T] : Prop where
  len_new : ∀ m, BasicArray.len (T := T) (BasicArray.new (Q := Q) m) = 0
  len_put : ∀ (s : Q) (v : T),
    BasicArray.len (T := T) (BasicArray.put s v) = BasicArray.len (T := T) s + 1
  len_get : ∀ (s : Q) (v : T) (s' : Q), BasicArray.get s = some (v, s') →
    BasicArray.len (T := T) s = BasicArray.len (T := T) s' + 1
  get_of_len_zero : ∀ s : Q, BasicArray.len (T := T) s = 0 →
    BasicArray.get (T := T) s = none

instance : LawfulBasicArray (VecDeque T) T where
  len_new _ := rfl
  len_put s v := by simp [BasicArray.len, BasicArray.put, vecDequeArray]
  len_get s v s' h := by
    rcases s with ⟨l⟩
    cases l with
    | nil => simp [BasicArray.get, vecDequeArray] at h
    | cons x xs =>
        simp only [BasicArray.get, vecDequeArray, Option.some.injEq, Prod.mk.injEq] at h
        obtain ⟨rfl, rfl⟩ := h
        simp [BasicArray.len, vecDequeArray]
  get_of_len_zero s h := by
    rcases s with ⟨l⟩
    cases l with
    | nil => rfl
    | cons x xs => simp [BasicArray.len, vecDequeArray] at h

instance : LawfulBasicArray (Vec T) T where
  len_new _ := rfl
  len_put s v := by simp [BasicArray.len, BasicArray.put, vecArray]
  len_get s v s' h := by
    rcases s with ⟨l⟩
    rcases heq : l.reverse with _ | ⟨x, xs⟩
    · simp [BasicArray.get, vecArray, heq] at h
    · simp only [BasicArray.get, vecArray, heq, Option.some.injEq, Prod.mk.injEq] at h
      obtain ⟨rfl, rfl⟩ := h
      have : l.length = (x :: xs).length := by rw [← heq, List.length_reverse]
      simp only [BasicArray.len, vecArray, List.length_reverse, this, List.length_cons]
  get_of_len_zero s h := by
    rcases s with ⟨l⟩
    cases l with
    | nil => rfl
    | cons x xs => simp [BasicArray.len, vecArray] at h

instance [LinearOrder P] : LawfulBasicArray (BinaryHeap T P) (PrioritizedItem T P) where
  len_new _ := rfl
  len_put s v := by
    simp [BasicArray.len, BasicArray.put, binaryHeapArray, List.orderedInsert_length]
  len_get s v s' h := by
    rcases s with ⟨l⟩
    cases l with
    | nil => simp [BasicArray.get, binaryHeapArray] at h
    | cons x xs =>
        simp only [BasicArray.get, binaryHeapArray, Option.some.injEq, Prod.mk.injEq] at h
        obtain ⟨rfl, rfl⟩ := h
        simp [BasicArray.len, binaryHeapArray]
  get_of_len_zero s h := by
    rcases s with ⟨l⟩
    cases l with
    | nil => rfl
    | cons x xs => simp [BasicArray.len, binaryHeapArray] at h

/-- A caller-visible queue operation, as named by the `Queue<T>` trait. -/
inductive QOp (T : Type v) where
  | put : T → QOp T
  | get : QOp T
  | put_wait : T → Bool → Nat → QOp T
  | get_wait : Bool → Nat → QOp T

/-- The state reached after one operation (a `_wait` call that is still
blocked has not yet mutated anything, so its state is the starting one). -/
def applyOp [BasicArray Q T] (q : BaseQueue Q T) : QOp T → BaseQueue Q T
  | .put v => (q.put v).2
  | .get => (q.get).2
  | .put_wait v tz fuel =>
      match q.put_wait v tz fuel with
      | some (_, q') => q'
      | none => q
  | .get_wait tz fuel =>
      match q.get_wait tz fuel with
      | some (_, q') => q'
      | none => q

/-- The state reached after a sequence of operations. -/
def applyOps [BasicArray Q T] (q : BaseQueue Q T) (ops : List (QOp T)) : BaseQueue Q T :=
  ops.foldl applyOp q

section OpLemmas

variable {Q : Type u} {T : Type v} [BasicArray Q T]

theorem put_snd_cases (q : BaseQueue Q T) (v : T) :
    (q.put v).2 = q ∨ (q.put v).2 = { q with queue := BasicArray.put q.queue v } := by
  unfold BaseQueue.put
  split
  · exact Or.inl rfl
  · exact Or.inr rfl

theorem get_snd_cases (q : BaseQueue Q T) :
    (q.get).2 = q ∨ ∃ v rest, BasicArray.get q.queue = some (v, rest) ∧
      (q.get).2 = { q with queue := rest } := by
  unfold BaseQueue.get
  rcases h : BasicArray.get q.queue with _ | ⟨v, rest⟩
  · exact Or.inl rfl
  · exact Or.inr ⟨v, rest, rfl, rfl⟩

theorem get_wait_zero_loop_state (q : BaseQueue Q T) (fuel : Nat) (r) (q' : BaseQueue Q T)
    (h : BaseQueue.get_wait_zero_loop q fuel = some (r, q')) : q' = (q.get).2 := by
  induction fuel with
  | zero =>
      unfold BaseQueue.get_wait_zero_loop at h
      split at h
      · exact absurd h (by simp)
      · rw [Option.some.injEq] at h; rw [h]
  | succ n ih =>
      unfold BaseQueue.get_wait_zero_loop at h
      split at h
      · exact ih h
      · rw [Option.some.injEq] at h; rw [h]

theorem get_wait_state (q : BaseQueue Q T) (tz : Bool) (fuel : Nat) (r) (q' : BaseQueue Q T)
    (h : q.get_wait tz fuel = some (r, q')) : q' = q ∨ q' = (q.get).2 := by
  unfold BaseQueue.get_wait at h
  split at h
  · exact Or.inr (get_wait_zero_loop_state q fuel r q' h)
  · split at h
    · rw [Option.some.injEq] at h
      exact Or.inl (congrArg Prod.snd h).symm
    · rw [Option.some.injEq] at h
      exact Or.inr (congrArg Prod.snd h).symm

theorem put_wait_zero_loop_state (q : BaseQueue Q T) (v : T) (fuel : Nat) (r)
    (q' : BaseQueue Q T)
    (h : BaseQueue.put_wait_zero_loop q v fuel = some (r, q')) : q' = (q.put v).2 := by
  induction fuel with
  | zero =>
      unfold BaseQueue.put_wait_zero_loop at h
      split at h
      · exact absurd h (by simp)
      · rw [Option.some.injEq] at h; rw [h]
  | succ n ih =>
      unfold BaseQueue.put_wait_zero_loop at h
      split at h
      · exact ih h
      · rw [Option.some.injEq] at h; rw [h]

theorem put_wait_state (q : BaseQueue Q T) (v : T) (tz : Bool) (fuel : Nat) (r)
    (q' : BaseQueue Q T)
    (h : q.put_wait v tz fuel = some (r, q')) : q' = q ∨ q' = (q.put v).2 := by
  unfold BaseQueue.put_wait at h
  split at h
  · exact Or.inr (put_wait_zero_loop_state q v fuel r q' h)
  · split at h
    · rw [Option.some.injEq] at h
      exact Or.inl (congrArg Prod.snd h).symm
    · rw [Option.some.injEq] at h
      exact Or.inr (congrArg Prod.snd h).symm

theorem applyOp_maxsize (q : BaseQueue Q T) (op : QOp T) :
    (applyOp q op).maxsize = q.maxsize := by
  cases op with
  | put v => rcases put_snd_cases q v with h | h <;> rw [applyOp, h]
  | get =>
      rcases get_snd_cases q with h | ⟨v, rest, _, h⟩ <;> rw [applyOp, h]
  | put_wait v tz fuel =>
      rw [applyOp]
      rcases h : q.put_wait v tz fuel with _ | ⟨r, q'⟩
      · rfl
      · rcases put_wait_state q v tz fuel r q' h with h' | h'
        · rw [h']
        · rw [h']
          rcases put_snd_cases q v with h2 | h2 <;> rw [h2]
  | get_wait tz fuel =>
      rw [applyOp]
      rcases h : q.get_wait tz fuel with _ | ⟨r, q'⟩
      · rfl
      · rcases get_wait_state q tz fuel r q' h with h' | h'
        · rw [h']
        · rw [h']
          rcases get_snd_cases q with h2 | ⟨v, rest, _, h2⟩ <;> rw [h2]

theorem applyOps_maxsize (q : BaseQueue Q T) (ops : List (QOp T)) :
    (applyOps q ops).maxsize = q.maxsize := by
  induction ops generalizing q with
  | nil => rfl
  | cons op ops ih => rw [applyOps, List.foldl_cons, ← applyOps, ih, applyOp_maxsize]

variable [LawfulBasicArray Q T]

theorem len_put_snd_le (q : BaseQueue Q T) (v : T) (N : Nat)
    (hmax : q.maxsize = some N) (h : q.len ≤ N) : ((q.put v).2).len ≤ N := by
  unfold BaseQueue.put
  split
  · exact h
  · rename_i hne
    rw [hmax, beq_iff_eq, Option.some.injEq] at hne
    simp only [BaseQueue.len] at h ⊢
    rw [LawfulBasicArray.len_put (T := T)]
    exact Nat.succ_le_of_lt (Nat.lt_of_le_of_ne h hne)

theorem len_get_snd_le (q : BaseQueue Q T) (N : Nat)
    (h : q.len ≤ N) : ((q.get).2).len ≤ N := by
  rcases get_snd_cases q with h2 | ⟨v, rest, hget, h2⟩
  · rw [h2]; exact h
  · rw [h2]
    simp only [BaseQueue.len] at h ⊢
    have := LawfulBasicArray.len_get (T := T) q.queue v rest hget
    omega

theorem len_applyOp_le (q : BaseQueue Q T) (N : Nat) (op : QOp T)
    (hmax : q.maxsize = some N) (h : q.len ≤ N) : (applyOp q op).len ≤ N := by
  cases op with
  | put v => exact len_put_snd_le q v N hmax h
  | get => exact len_get_snd_le q N h
  | put_wait v tz fuel =>
      rw [applyOp]
      rcases h2 : q.put_wait v tz fuel with _ | ⟨r, q'⟩
      · exact h
      · rcases put_wait_state q v tz fuel r q' h2 with h' | h'
        · rw [h']; exact h
        · rw [h']; exact len_put_snd_le q v N hmax h
  | get_wait tz fuel =>
      rw [applyOp]
      rcases h2 : q.get_wait tz fuel with _ | ⟨r, q'⟩
      · exact h
      · rcases get_wait_state q tz fuel r q' h2 with h' | h'
        · rw [h']; exact h
        · rw [h']; exact len_get_snd_le q N h

theorem len_applyOps_le (q : BaseQueue Q T) (N : Nat) (ops : List (QOp T))
    (hmax : q.maxsize = some N) (h : q.len ≤ N) : (applyOps q ops).len ≤ N := by
  induction ops generalizing q with
  | nil => exact h
  | cons op ops ih =>
      rw [applyOps, List.foldl_cons, ← applyOps]
      exact ih (applyOp q op) (by rw [applyOp_maxsize, hmax]) (len_applyOp_le q N op hmax h)

theorem len_applyOps_new_le (N : Nat) (ops : List (QOp T)) :
    (applyOps (BaseQueue.new (some N) : BaseQueue Q T) ops).len ≤ N := by
  refine len_applyOps_le _ N ops rfl ?_
  show BasicArray.len (T := T) (BasicArray.new (Q := Q) (some N)) ≤ N
  rw [LawfulBasicArray.len_new (T := T)]
  exact Nat.zero_le N

end OpLemmas

/-- C7: for a queue constructed with capacity bound `N`, every state
reachable by any sequence of `put`/`put_wait`/`get`/`get_wait` operations
has length at most `N`; and `len` is by definition the backing store's own
element count (no separate counter exists in the state). -/
theorem claim_C7 {Q : Type u} {T : Type v} [BasicArray Q T] [LawfulBasicArray Q T]
    (N : Nat) :
    (∀ ops : List (QOp T),
      (applyOps (BaseQueue.new (some N) : BaseQueue Q T) ops).len ≤ N) ∧
    (∀ q : BaseQueue Q T, q.len = BasicArray.len (T := T) q.queue) :=
  ⟨len_applyOps_new_le N, fun _ => rfl⟩

/-- C7 witness: a FIFO queue bounded at 2, driven by a mix of the four
operations, never exceeds length 2. -/
theorem claim_C7_witness :
    (applyOps (BaseQueue.new (some 2) : FifoQueue Nat)
        [QOp.put 1, QOp.put 2, QOp.put 3, QOp.get, QOp.put_wait 4 true 0,
          QOp.get_wait false 2]).len ≤ 2 ∧
    (⟨⟨[9]⟩, some 2⟩ : FifoQueue Nat).len =
      BasicArray.len (T := Nat) (⟨[9]⟩ : VecDeque Nat) :=
  ⟨(claim_C7 2).1 _, (claim_C7 (Q := VecDeque Nat) (T := Nat) 2).2 ⟨⟨[9]⟩, some 2⟩⟩

/-- C10: a queue constructed with capacity bound 0 can never hold an
element: every reachable state has length 0, every non-blocking `put v`
there returns the `Full` fault carrying `v` with the state unchanged, and
every `get` returns the `Empty` fault with the state unchanged. -/
theorem claim_C10 {Q : Type u} {T : Type v} [BasicArray Q T] [LawfulBasicArray Q T]
    (ops : List (QOp T)) (v : T) :
    (applyOps (BaseQueue.new (some 0) : BaseQueue Q T) ops).len = 0 ∧
    (applyOps (BaseQueue.new (some 0) : BaseQueue Q T) ops).put v
      = (Except.error ⟨v, QueueError.Full⟩,
          applyOps (BaseQueue.new (some 0) : BaseQueue Q T) ops) ∧
    (applyOps (BaseQueue.new (some 0) : BaseQueue Q T) ops).get
      = (Except.error QueueError.Empty,
          applyOps (BaseQueue.new (some 0) : BaseQueue Q T) ops) := by
  have hlen : (applyOps (BaseQueue.new (some 0) : BaseQueue Q T) ops).len = 0 :=
    Nat.le_zero.mp (len_applyOps_new_le 0 ops)
  have hmax : (applyOps (BaseQueue.new (some 0) : BaseQueue Q T) ops).maxsize = some 0 :=
    applyOps_maxsize _ ops
  refine ⟨hlen, ?_, ?_⟩
  · rw [put_of_len_eq_bound _ v 0 hmax hlen]
  · simp only [BaseQueue.len] at hlen
    rw [BaseQueue.get, LawfulBasicArray.get_of_len_zero (T := T) _ hlen]

/-- C10 witness: a capacity-0 FIFO queue, after a put attempt and a get,
still has length 0, rejects `put 3` with `Full 3`, and `get` yields
`Empty`. -/
theorem claim_C10_witness :
    (applyOps (BaseQueue.new (some 0) : FifoQueue Nat) [QOp.put 1, QOp.get]).len = 0 ∧
    (applyOps (BaseQueue.new (some 0) : FifoQueue Nat) [QOp.put 1, QOp.get]).put 3
      = (Except.error ⟨3, QueueError.Full⟩,
          applyOps (BaseQueue.new (some 0) : FifoQueue Nat) [QOp.put 1, QOp.get]) ∧
    (applyOps (BaseQueue.new (some 0) : FifoQueue Nat) [QOp.put 1, QOp.get]).get
      = (Except.error QueueError.Empty,
          applyOps (BaseQueue.new (some 0) : FifoQueue Nat) [QOp.put 1, QOp.get]) :=
  claim_C10 [QOp.put 1, QOp.get] 3

/-- C2 counterexample: the claim reads `timeout = 0` as "do not block".
In the code the `timeout.is_zero()` branch enters an untimed wait loop,
`while self.is_empty()` wait: `get_wait` with timeout 0 on a fresh empty
queue is still blocked (`none`) instead of returning the `Empty` fault, and
`put_wait` with timeout 0 on a full queue is still blocked instead of
returning `Full(value)`. -/
theorem claim_C2_counterexample :
    (BaseQueue.new none : FifoQueue Nat).get_wait true 0 = none ∧
    (⟨⟨[5]⟩, some 1⟩ : FifoQueue Nat).put_wait 7 true 0 = none := by
  exact ⟨rfl, rfl⟩

/-- C2 (amended): `timeout = 0` means block indefinitely, not "do not
block": `get_wait` with timeout 0 on an empty queue stays in the untimed
wait loop after any number of wake-ups (the emptiness re-check never
passes while the queue stays empty), and `put_wait` with timeout 0 on a
full queue likewise; with `timeout > 0`, on a queue that stays empty
(resp. full) the wait times out and the call returns `Empty`
(resp. `Full(value)`) with the state unchanged. -/
theorem claim_C2 {Q : Type u} {T : Type v} [BasicArray Q T]
    (q : BaseQueue Q T) (v : T) (fuel : Nat) :
    (q.is_empty = true → q.get_wait true fuel = none) ∧
    (q.is_empty = true →
      q.get_wait false fuel = some (Except.error QueueError.Empty, q)) ∧
    (q.is_full = true → q.put_wait v true fuel = none) ∧
    (q.is_full = true →
      q.put_wait v false fuel = some (Except.error ⟨v, QueueError.Full⟩, q)) := by
  refine ⟨fun he => ?_, fun he => ?_, fun hf => ?_, fun hf => ?_⟩
  · rw [BaseQueue.get_wait, if_pos rfl]
    induction fuel with
    | zero => rw [BaseQueue.get_wait_zero_loop, if_pos he]
    | succ n ih => rw [BaseQueue.get_wait_zero_loop, if_pos he]; exact ih
  · rw [BaseQueue.get_wait]
    simp [he]
  · rw [BaseQueue.put_wait, if_pos rfl]
    induction fuel with
    | zero => rw [BaseQueue.put_wait_zero_loop, if_pos hf]
    | succ n ih => rw [BaseQueue.put_wait_zero_loop, if_pos hf]; exact ih
  · rw [BaseQueue.put_wait]
    simp [hf]

/-- C2 witness: instantiated on an empty unbounded FIFO queue (get side)
and a full FIFO queue of bound 1 (put side), with 3 wake-ups of fuel. -/
theorem claim_C2_witness :
    ((BaseQueue.new none : FifoQueue Nat).get_wait true 3 = none) ∧
    ((BaseQueue.new none : FifoQueue Nat).get_wait false 3
      = some (Except.error QueueError.Empty, BaseQueue.new none)) ∧
    ((⟨⟨[5]⟩, some 1⟩ : FifoQueue Nat).put_wait 7 true 3 = none) ∧
    ((⟨⟨[5]⟩, some 1⟩ : FifoQueue Nat).put_wait 7 false 3
      = some (Except.error ⟨7, QueueError.Full⟩, ⟨⟨[5]⟩, some 1⟩)) :=
  ⟨(claim_C2 (BaseQueue.new none : FifoQueue Nat) 0 3).1 rfl,
   (claim_C2 (BaseQueue.new none : FifoQueue Nat) 0 3).2.1 rfl,
   (claim_C2 (⟨⟨[5]⟩, some 1⟩ : FifoQueue Nat) 7 3).2.2.1 rfl,
   (claim_C2 (⟨⟨[5]⟩, some 1⟩ : FifoQueue Nat) 7 3).2.2.2 rfl⟩

/-- Program counter of a consumer thread executing the `timeout.is_zero()`
branch of `get_wait` on an unbounded FIFO queue (`src/queue.rs`):
`checkEmpty` is about to evaluate `self.is_empty()` (which takes and
releases the queue mutex); `callWait` has observed "empty" and is about to
lock `pending` and block on the `not_empty` condition signal — the queue
mutex is no longer held here; `blocked` is asleep inside `Condvar::wait`;
`doGet` has exited the loop and is about to run `self.get()`;
`finished r` has returned `r`. -/
inductive ConsumerPC where
  | checkEmpty : ConsumerPC
  | callWait : ConsumerPC
  | blocked : ConsumerPC
  | doGet : ConsumerPC
  | finished : Except QueueError Nat → ConsumerPC
deriving Repr

/-- Joint state of the two-thread race: the shared FIFO store, the
consumer's position inside `get_wait(0)`, and whether the producer's single
`put` has executed. -/
structure RaceState where
  store : List Nat
  cons : ConsumerPC
  prodDone : Bool
deriving Repr

/-- `Condvar::notify_one`: wakes the waiter if one is currently blocked
(the woken consumer re-enters the loop and re-checks `is_empty`); if nobody
is blocked yet the signal is discarded, not saved. -/
def wakeOne : ConsumerPC → ConsumerPC
  | .blocked => .checkEmpty
  | c => c

/-- Which thread the scheduler runs next (the producer step carries the
value it puts). -/
inductive RaceLabel where
  | consumer : RaceLabel
  | producer : Nat → RaceLabel

/-- One scheduler step of the race, line by line from `src/queue.rs`.
The consumer follows `get_wait`'s zero-timeout branch; a `blocked` consumer
resumes only on a notification (the platform permits spurious wake-ups but
promises none, so executions without them are legal).  The producer runs
`put x` once — lock the queue, insert (no bound), `notify_one(not_empty)` —
as one step: it holds the queue mutex throughout and never touches the
`pending` mutex the waiter uses, so nothing orders it relative to the
consumer's gap between observing "empty" and blocking.  `none` means that
thread cannot move. -/
def raceStep (s : RaceState) : RaceLabel → Option RaceState
  | .producer x =>
      if s.prodDone then none
      else some ⟨s.store ++ [x], wakeOne s.cons, true⟩
  | .consumer =>
      match s.cons with
      | .checkEmpty =>
          if s.store.isEmpty then some { s with cons := .callWait }
          else some { s with cons := .doGet }
      | .callWait => some { s with cons := .blocked }
      | .blocked => none
      | .doGet =>
          match s.store with
          | [] => some { s with cons := .finished (Except.error QueueError.Empty) }
          | x :: rest => some { s with store := rest, cons := .finished (Except.ok x) }
      | .finished _ => none

/-- C9, refuted at the code: the re-check-after-wake half holds (a woken
consumer returns to `checkEmpty`), but wait/notify are NOT atomic relative
to state mutation, and a waiter IS permanently missed.  The interleaving:
the consumer observes the queue empty; the producer then runs `put 42` to
completion, whose `notify_one` finds nobody blocked and is discarded; the
consumer then blocks on `not_empty`.  The resulting state — a non-empty
queue, the producer finished, the consumer asleep — is stuck: no scheduler
choice can move either thread, so the consumer sleeps forever despite the
concurrent put. -/
theorem claim_C9 :
    (∀ store x, raceStep ⟨store, .blocked, false⟩ (.producer x)
      = some ⟨store ++ [x], .checkEmpty, true⟩) ∧
    raceStep ⟨[], .checkEmpty, false⟩ .consumer = some ⟨[], .callWait, false⟩ ∧
    raceStep ⟨[], .callWait, false⟩ (.producer 42) = some ⟨[42], .callWait, true⟩ ∧
    raceStep ⟨[42], .callWait, true⟩ .consumer = some ⟨[42], .blocked, true⟩ ∧
    (∀ label, raceStep ⟨[42], .blocked, true⟩ label = none) := by
  refine ⟨fun store x => rfl, rfl, rfl, rfl, fun label => ?_⟩
  cases label with
  | consumer => rfl
  | producer x => rfl

end Rueue
